import Mathlib

/-!
Shallow embedding of the lazy-sequence combinator toolkit of
`features_tutorial/motivation.py`: the staggered-zip windowing primitive
`pairwise`, the contiguous-run grouper `contiguous`, the range formatter
`to_ranges`, the combinatorial enumerators `powerset` and
`all_permutations`, and the word-finder pipeline.

Lazy generators over finite sources are embedded as Lean lists (the list
of all values the generator yields); a call that raises before finishing
is embedded as `none` in an `Option` result.  Two Python 2 details
matter: `pairwise` is a plain function, so the `StopIteration` raised by
its advance loop when a teed copy is exhausted early escapes the call
itself; and a `StopIteration` raised inside a generator frame (as when
`contiguous` calls `pairwise` on a too-short source) is indistinguishable
from normal exhaustion, so the generator simply stops.
-/

namespace Motivation

variable {α : Type*} {β : Type*}

/-- First element of every list in `ls`, or `none` as soon as one list is
exhausted.  This is the per-step pull of `izip`: pull one value from each
iterator in index order, stopping when any iterator is exhausted. -/
def heads? : List (List α) → Option (List α)
  | [] => some []
  | [] :: _ => none
  | (a :: _) :: rest => (heads? rest).map (a :: ·)

/-- Worker for `izipAll`, structurally recursive on the first iterator. -/
def izipAllGo : List α → List (List α) → List (List α)
  | [], _ => []
  | a :: l, rest =>
    match heads? rest with
    | none => []
    | some hs => (a :: hs) :: izipAllGo l (rest.map List.tail)

/-- `itertools.izip(*iterables)`: tuples of the first elements from each
iterable, the second elements from each, …, stopping as soon as any one
iterable is exhausted.  `izip()` with no iterables is empty. -/
def izipAll : List (List α) → List (List α)
  | [] => []
  | l :: rest => izipAllGo l rest

/-- The staggered copies of the source built by `pairwise`: `tee` makes `n`
independent copies of the iterable and copy `i`, advanced by `i` values,
holds exactly `s.drop i`.  Used only once `pairwise` has checked that
every advance succeeded (`i ≤ s.length` for each copy). -/
def staggered (s : List α) (n : Nat) : List (List α) :=
  (List.range n).map fun i => s.drop i

/-- The `izip(*iterables)` expression returned by `pairwise`: the zip of
the staggered copies. -/
def staggerZip (s : List α) (n : Nat) : List (List α) :=
  izipAll (staggered s n)

/-- `pairwise(iterable, n)` from `motivation.py`: `tee` the source into `n`
copies and advance the `i`-th copy by `i` values.  Each advance is a bare
`next(it)`, so as soon as some copy `i` has fewer than `i` values — i.e.
`i > len(s)` for some `i < n`, equivalently `n ≥ len(s) + 2` —
`StopIteration` escapes the call itself (`pairwise` is a plain function,
not a generator).  Otherwise the `izip` of the staggered copies is
returned. -/
def pairwise (s : List α) (n : Nat) : Option (List (List α)) :=
  if (List.range n).all (fun i => i ≤ s.length) then some (staggerZip s n)
  else none

/-- `pairwise` with the window size as a Python `int`: `itertools.tee`
raises `ValueError` when the requested number of copies is negative, and
otherwise the call proceeds as `pairwise`. -/
def pairwiseInt (s : List α) (n : Int) : Option (List (List α)) :=
  if n < 0 then none else pairwise s n.toNat

/-- The intended window sequence: one window `(S[i], …, S[i+n-1])` for each
start position `i` with a full window available. -/
def windows (s : List α) (n : Nat) : List (List α) :=
  (List.range (s.length + 1 - n)).map fun i => (s.drop i).take n

/-- The loop of `contiguous`: iterate over the pairs produced by
`pairwise(iterable, 2)`, appending `x` to the buffer and emitting the
buffer at each gap; after the loop, emit `buffer + [y]` where `y` is the
loop variable of the final iteration.  When the pair stream was empty the
loop variable was never bound, so reading it fails (`none`), exactly like
the `UnboundLocalError` of the Python generator. -/
def contiguousLoop : List (List Int) → List Int → List (List Int) →
    Option Int → Option (List (List Int))
  | [], _, _, none => none
  | [], buffer, out, some y => some (out ++ [buffer ++ [y]])
  | w :: rest, buffer, out, lastY =>
    match w, lastY with
    | [x, y], _ =>
      if y - x > 1 then contiguousLoop rest [] (out ++ [buffer ++ [x]]) (some y)
      else contiguousLoop rest (buffer ++ [x]) out (some y)
    | _, _ => none

/-- `contiguous(iterable)` from `motivation.py`: group the source into
contiguous runs using `pairwise(iterable, 2)`.  When `pairwise` raises
`StopIteration` (empty source), it does so inside the generator frame,
which Python 2 treats as normal exhaustion: the generator terminates
having yielded nothing, so the call returns zero runs rather than
failing. -/
def contiguous (s : List Int) : Option (List (List Int)) :=
  match pairwise s 2 with
  | none => some []
  | some pairs => contiguousLoop pairs [] [] none

/-- `to_ranges(iterable)` from `motivation.py`: render each run emitted by
`contiguous` as `'%d' % subset[0]` when it has one element and
`'%d-%d' % (subset[0], subset[-1])` otherwise.  (`contiguous` never emits
an empty run, so the `headD`/`getLastD` defaults are unreachable.) -/
def to_ranges (s : List Int) : Option (List String) :=
  (contiguous s).map (List.map fun subset =>
    if subset.length = 1 then toString (subset.headD 0)
    else toString (subset.headD 0) ++ "-" ++ toString (subset.getLastD 0))

/-- Modelled from the spec (§4.3): `formatRun(run)` — a single-element run
becomes the decimal string of that element, a multi-element run becomes
`"<first>-<last>"` from the run's first and last elements. -/
def formatRun (run : List Int) : String :=
  match run with
  | [a] => toString a
  | _ => toString (run.headD 0) ++ "-" ++ toString (run.getLastD 0)

/-- `itertools.combinations(pool, r)`: all length-`r` combinations of the
pool, in lexicographic order of index positions, each combination keeping
the pool's element order. -/
def combinations : List α → Nat → List (List α)
  | _, 0 => [[]]
  | [], _ + 1 => []
  | a :: t, r + 1 => (combinations t r).map (a :: ·) ++ combinations t (r + 1)

/-- `powerset(iterable)` from `motivation.py`: materialize the source,
then for `r` from 1 to `len` emit every `r`-combination. -/
def powerset (items : List α) : List (List α) :=
  (List.range items.length).flatMap fun k => combinations items (k + 1)

/-- Each way of picking one element out of a list: the picked element
together with the remaining pool in its original order, one pair per
position, in position order. -/
def pickOne : List α → List (α × List α)
  | [] => []
  | a :: t => (a, t) :: (pickOne t).map fun p => (p.1, a :: p.2)

/-- `itertools.permutations(pool, r)`: all length-`r` arrangements of
distinct positions of the pool, in lexicographic order of index
positions — pick each first element in position order and arrange `r - 1`
further elements from the remaining pool. -/
def permsOf : Nat → List α → List (List α)
  | 0, _ => [[]]
  | r + 1, pool => (pickOne pool).flatMap fun p => (permsOf r p.2).map (p.1 :: ·)

/-- `all_permutations(iterable)` from `motivation.py`: materialize the
source, then for `r` from 1 to `len` emit every `r`-permutation. -/
def all_permutations (items : List α) : List (List α) :=
  (List.range items.length).flatMap fun k => permsOf (k + 1) items

/-- The word-finder pipeline of `motivation.py`:
`{''.join(x) for x in all_permutations(letters)} & dictionary`. -/
def findWords (letters : List Char) (dictionary : Finset String) : Finset String :=
  ((all_permutations letters).map fun x => String.mk x).toFinset ∩ dictionary

/-- Reference shape of the runs emitted by `contiguous` on a source with
current element `x`, already-buffered prefix `buffer`, and remaining
elements `s`. -/
def runsFrom : List Int → Int → List Int → List (List Int)
  | buffer, x, [] => [buffer ++ [x]]
  | buffer, x, y :: t =>
    if y - x > 1 then (buffer ++ [x]) :: runsFrom [] y t
    else runsFrom (buffer ++ [x]) y t

/-! ### Windowing engine: `pairwise` produces exactly the sliding windows -/

theorem drop_succ_eq_tail_drop (s : List α) (i : Nat) :
    s.drop (i + 1) = s.tail.drop i := by
  cases s <;> simp

theorem staggered_succ (s : List α) (n : Nat) :
    staggered s (n + 1) = s :: staggered s.tail n := by
  unfold staggered
  rw [List.range_succ_eq_map, List.map_cons, List.map_map, List.drop_zero]
  congr 1
  refine List.map_congr_left fun i _ => ?_
  simp only [Function.comp_apply]
  exact drop_succ_eq_tail_drop s i

theorem izipAllGo_cons_none (a : α) (l : List α) (rest : List (List α))
    (h : heads? rest = none) : izipAllGo (a :: l) rest = [] := by
  simp [izipAllGo, h]

theorem izipAllGo_cons_some (a : α) (l : List α) (rest : List (List α))
    (hs : List α) (h : heads? rest = some hs) :
    izipAllGo (a :: l) rest = (a :: hs) :: izipAllGo l (rest.map List.tail) := by
  simp [izipAllGo, h]

theorem heads?_staggered (t : List α) (m : Nat) :
    heads? (staggered t m) = if m ≤ t.length then some (t.take m) else none := by
  induction m generalizing t with
  | zero => simp [staggered, heads?]
  | succ m ih =>
    rw [staggered_succ]
    cases t with
    | nil => simp [heads?]
    | cons b v =>
      simp only [List.tail_cons, heads?, ih v]
      by_cases h : m ≤ v.length
      · rw [if_pos h, if_pos (by simpa using Nat.succ_le_succ h)]
        simp
      · rw [if_neg h, if_neg (by simpa using fun hh => h (Nat.le_of_succ_le_succ hh))]
        simp

theorem map_tail_staggered (t : List α) (m : Nat) :
    (staggered t m).map List.tail = staggered t.tail m := by
  simp only [staggered, List.map_map]
  refine List.map_congr_left fun i _ => ?_
  simp [List.tail_drop]

theorem windows_nil (n : Nat) (hn : 1 ≤ n) : windows ([] : List α) n = [] := by
  unfold windows
  have h0 : ([] : List α).length + 1 - n = 0 := by
    simp only [List.length_nil]; omega
  rw [h0]
  rfl

theorem windows_cons_le (a : α) (t : List α) (m : Nat) (h : m ≤ t.length) :
    windows (a :: t) (m + 1) = (a :: t.take m) :: windows t (m + 1) := by
  unfold windows
  have h1 : (a :: t).length + 1 - (m + 1) = (t.length - m) + 1 := by
    simp; omega
  have h2 : t.length + 1 - (m + 1) = t.length - m := by omega
  rw [h1, h2, List.range_succ_eq_map, List.map_cons, List.map_map]
  refine congrArg₂ (· :: ·) (by simp) ?_
  refine List.map_congr_left fun i _ => ?_
  simp [List.drop_succ_cons]

theorem windows_cons_gt (a : α) (t : List α) (m : Nat) (h : t.length < m) :
    windows (a :: t) (m + 1) = [] := by
  unfold windows
  have h0 : (a :: t).length + 1 - (m + 1) = 0 := by
    simp only [List.length_cons]; omega
  rw [h0]
  rfl

theorem staggerZip_eq_windows (s : List α) (n : Nat) (hn : 1 ≤ n) :
    staggerZip s n = windows s n := by
  obtain ⟨m, rfl⟩ : ∃ m, n = m + 1 := ⟨n - 1, by omega⟩
  induction s with
  | nil =>
    rw [staggerZip, staggered_succ, windows_nil _ hn]
    simp [izipAll, izipAllGo]
  | cons a t ih =>
    rw [staggerZip, staggered_succ]
    simp only [List.tail_cons]
    rw [izipAll]
    by_cases h : m ≤ t.length
    · rw [izipAllGo_cons_some a t _ (t.take m)
        (by rw [heads?_staggered, if_pos h]), map_tail_staggered]
      have hrec : izipAllGo t (staggered t.tail m) = staggerZip t (m + 1) := by
        rw [staggerZip, staggered_succ, izipAll]
      rw [hrec, ih, windows_cons_le a t m h]
    · rw [izipAllGo_cons_none a t _
        (by rw [heads?_staggered, if_neg h]),
        windows_cons_gt a t m (by omega)]

theorem pairwise_advance_ok (s : List α) (n : Nat) (hle : n ≤ s.length + 1) :
    pairwise s n = some (staggerZip s n) := by
  rw [pairwise, if_pos]
  simp only [List.all_eq_true, List.mem_range, decide_eq_true_eq]
  intro i hi
  omega

theorem pairwise_advance_fails (s : List α) (n : Nat) (hge : s.length + 2 ≤ n) :
    pairwise s n = none := by
  rw [pairwise, if_neg]
  simp only [List.all_eq_true, List.mem_range, decide_eq_true_eq]
  push_neg
  exact ⟨s.length + 1, by omega, by omega⟩

/-- C1 (amended): for a finite source `s` and window size `n` with
`1 ≤ n ≤ len s + 1`, `pairwise s n` succeeds and yields exactly
`max 0 (len s − n + 1)` windows (so zero windows at `n = len s + 1`),
with the window at output index `i` equal to the tuple
`(s[i], s[i+1], …, s[i+n-1])`; for `n ≥ len s + 2` the call fails —
the advance loop's `next(it)` raises `StopIteration` out of
`pairwise`. -/
theorem pairwise_window_count_and_entries (s : List α) (n : Nat) (hn : 1 ≤ n) :
    (n ≤ s.length + 1 →
      pairwise s n = some (windows s n) ∧
      (windows s n).length = s.length + 1 - n ∧
      ((windows s n).length : Int) = max 0 ((s.length : Int) - n + 1) ∧
      ∀ i k : Nat, i + n ≤ s.length → k < n →
        ((windows s n)[i]?.bind fun w => w[k]?) = s[i + k]?) ∧
    (s.length + 2 ≤ n → pairwise s n = none) := by
  constructor
  · intro hle
    have hps : pairwise s n = some (windows s n) := by
      rw [pairwise_advance_ok s n hle, staggerZip_eq_windows s n hn]
    have hlen : (windows s n).length = s.length + 1 - n := by
      simp [windows]
    refine ⟨hps, hlen, ?_, ?_⟩
    · rw [hlen]; omega
    · intro i k hik hk
      have hi : i < s.length + 1 - n := by omega
      have hwi : (windows s n)[i]? = some ((s.drop i).take n) := by
        unfold windows
        rw [List.getElem?_map, List.getElem?_range hi]
        rfl
      rw [hwi]
      simp only [Option.some_bind]
      rw [List.getElem?_take, if_pos hk, List.getElem?_drop]
  · exact pairwise_advance_fails s n

theorem pairwise_window_count_and_entries_witness :
    (1 : Nat) ≤ 2 ∧
    ((2 ≤ [10, 20, 30, 40].length + 1 →
      pairwise [10, 20, 30, 40] 2 = some (windows [10, 20, 30, 40] 2) ∧
      (windows [10, 20, 30, 40] 2).length = [10, 20, 30, 40].length + 1 - 2 ∧
      ((windows [10, 20, 30, 40] 2).length : Int) =
        max 0 (([10, 20, 30, 40].length : Int) - 2 + 1) ∧
      ∀ i k : Nat, i + 2 ≤ [10, 20, 30, 40].length → k < 2 →
        ((windows [10, 20, 30, 40] 2)[i]?.bind fun w => w[k]?) =
          [10, 20, 30, 40][i + k]?) ∧
    ([10, 20, 30, 40].length + 2 ≤ 2 → pairwise [10, 20, 30, 40] 2 = none)) :=
  ⟨by decide, pairwise_window_count_and_entries [10, 20, 30, 40] 2 (by decide)⟩

/-- C1 counterexample: at `S = [1]`, `n = 3 > len S`, the claim says
`pairwise` yields zero windows, but the call fails instead: advancing the
third teed copy twice exhausts the one-element source and `StopIteration`
escapes `pairwise`. -/
theorem pairwise_gt_succ_counterexample :
    ([1] : List Int).length < 3 ∧ pairwise ([1] : List Int) 3 = none :=
  ⟨by decide, rfl⟩

/-! ### Run grouper: `contiguous` -/

theorem staggerZip_two_nil : staggerZip ([] : List α) 2 = [] := rfl

theorem staggerZip_two_single (x : α) : staggerZip [x] 2 = [] := rfl

theorem staggerZip_two_cons (x y : α) (t : List α) :
    staggerZip (x :: y :: t) 2 = [x, y] :: staggerZip (y :: t) 2 := rfl

theorem contiguousLoop_pair_cons (x y : Int) (rest : List (List Int))
    (buffer : List Int) (out : List (List Int)) (w : Option Int) :
    contiguousLoop ([x, y] :: rest) buffer out w =
      if y - x > 1 then contiguousLoop rest [] (out ++ [buffer ++ [x]]) (some y)
      else contiguousLoop rest (buffer ++ [x]) out (some y) := rfl

theorem contiguousLoop_staggerZip (t : List Int) :
    ∀ (x y : Int) (buffer : List Int) (out : List (List Int)) (w : Option Int),
      contiguousLoop (staggerZip (x :: y :: t) 2) buffer out w =
        some (out ++ runsFrom buffer x (y :: t)) := by
  induction t with
  | nil =>
    intro x y buffer out w
    rw [staggerZip_two_cons, staggerZip_two_single, contiguousLoop_pair_cons]
    by_cases h : y - x > 1
    · rw [if_pos h, runsFrom, if_pos h]
      simp [contiguousLoop, runsFrom]
    · rw [if_neg h, runsFrom, if_neg h]
      simp [contiguousLoop, runsFrom]
  | cons z t ih =>
    intro x y buffer out w
    rw [staggerZip_two_cons, contiguousLoop_pair_cons]
    by_cases h : y - x > 1
    · rw [if_pos h, ih y z]
      conv_rhs => rw [runsFrom, if_pos h]
      simp
    · rw [if_neg h, ih y z]
      conv_rhs => rw [runsFrom, if_neg h]

theorem contiguous_cons_cons (x y : Int) (t : List Int) :
    contiguous (x :: y :: t) = some (runsFrom [] x (y :: t)) := by
  have hp : pairwise (x :: y :: t) 2 = some (staggerZip (x :: y :: t) 2) := by
    refine pairwise_advance_ok _ 2 ?_
    simp only [List.length_cons]
    omega
  rw [contiguous, hp]
  show contiguousLoop (staggerZip (x :: y :: t) 2) [] [] none =
    some (runsFrom [] x (y :: t))
  rw [contiguousLoop_staggerZip]
  simp

theorem runsFrom_flatten (buffer : List Int) (x : Int) (s : List Int) :
    (runsFrom buffer x s).flatten = buffer ++ x :: s := by
  induction s generalizing buffer x with
  | nil => simp [runsFrom]
  | cons y t ih =>
    rw [runsFrom]
    by_cases h : y - x > 1
    · rw [if_pos h]
      simp [ih]
    · rw [if_neg h, ih]
      simp

theorem runsFrom_ne_nil (buffer : List Int) (x : Int) (s : List Int) :
    ∀ r ∈ runsFrom buffer x s, r ≠ [] := by
  induction s generalizing buffer x with
  | nil =>
    intro r hr
    rw [runsFrom] at hr
    simp at hr
    subst hr
    simp
  | cons y t ih =>
    intro r hr
    rw [runsFrom] at hr
    by_cases h : y - x > 1
    · rw [if_pos h] at hr
      rcases List.mem_cons.mp hr with h1 | h2
      · subst h1; simp
      · exact ih [] y r h2
    · rw [if_neg h] at hr
      exact ih (buffer ++ [x]) y r hr

theorem runsFrom_head (x : Int) (s : List Int) :
    ∀ buffer, ∃ r rs, runsFrom buffer x s = r :: rs ∧
      r.head? = (buffer ++ [x]).head? := by
  induction s generalizing x with
  | nil => exact fun buffer => ⟨buffer ++ [x], [], by rw [runsFrom], rfl⟩
  | cons y t ih =>
    intro buffer
    rw [runsFrom]
    by_cases h : y - x > 1
    · rw [if_pos h]
      exact ⟨buffer ++ [x], runsFrom [] y t, rfl, rfl⟩
    · rw [if_neg h]
      obtain ⟨r, rs, heq, hh⟩ := ih y (buffer ++ [x])
      refine ⟨r, rs, heq, ?_⟩
      rw [hh]
      cases buffer <;> simp

theorem runsFrom_gap (buffer : List Int) (x : Int) (s : List Int) :
    List.Chain' (fun r1 r2 => ∀ a ∈ r1.getLast?, ∀ b ∈ r2.head?, b - a > 1)
      (runsFrom buffer x s) := by
  induction s generalizing buffer x with
  | nil => rw [runsFrom]; simp
  | cons y t ih =>
    rw [runsFrom]
    by_cases h : y - x > 1
    · rw [if_pos h, List.chain'_cons']
      refine ⟨?_, ih [] y⟩
      intro r2 hr2 a ha b hb
      obtain ⟨r, rs, heq, hh⟩ := runsFrom_head y t []
      rw [heq] at hr2
      simp only [List.head?_cons, Option.mem_some_iff] at hr2
      subst hr2
      rw [List.getLast?_concat] at ha
      simp only [Option.mem_some_iff] at ha
      subst ha
      rw [hh] at hb
      simp only [List.nil_append, List.head?_cons, Option.mem_some_iff] at hb
      subst hb
      omega
    · rw [if_neg h]
      exact ih (buffer ++ [x]) y

theorem runsFrom_step_one (buffer : List Int) (x : Int) (s : List Int)
    (hbuf : List.Chain' (fun a b => b = a + 1) (buffer ++ [x]))
    (hs : List.Chain' (· < ·) (x :: s)) :
    ∀ r ∈ runsFrom buffer x s, List.Chain' (fun a b => b = a + 1) r := by
  induction s generalizing buffer x with
  | nil =>
    intro r hr
    rw [runsFrom] at hr
    simp at hr
    subst hr
    exact hbuf
  | cons y t ih =>
    have hxy : x < y := (List.chain'_cons.mp hs).1
    have htl : List.Chain' (· < ·) (y :: t) := (List.chain'_cons.mp hs).2
    intro r hr
    rw [runsFrom] at hr
    by_cases h : y - x > 1
    · rw [if_pos h] at hr
      rcases List.mem_cons.mp hr with h1 | h2
      · subst h1; exact hbuf
      · exact ih [] y (by simp) htl r h2
    · rw [if_neg h] at hr
      have hy : y = x + 1 := by omega
      refine ih (buffer ++ [x]) y ?_ htl r hr
      rw [List.chain'_append]
      refine ⟨hbuf, by simp, ?_⟩
      intro p hp q hq
      rw [List.getLast?_concat] at hp
      simp only [Option.mem_some_iff] at hp
      simp only [List.head?_cons, Option.mem_some_iff] at hq
      omega

/-- C2 (amended): for every strictly increasing integer sequence whose
length is not exactly 1 (inputs of length 1 make `contiguous` fail by
reading the never-bound loop variable), `contiguous` succeeds, the
emitted runs concatenate back to the source (zero runs for the empty
source), each run is nonempty and internally steps by exactly 1, and
consecutive runs are separated by a gap greater than 1. -/
theorem contiguous_partitions_into_runs (s : List Int) (h1 : s.length ≠ 1)
    (hinc : List.Chain' (· < ·) s) :
    ∃ runs, contiguous s = some runs ∧
      runs.flatten = s ∧
      (∀ r ∈ runs, r ≠ [] ∧ List.Chain' (fun a b => b = a + 1) r) ∧
      List.Chain' (fun r1 r2 => ∀ a ∈ r1.getLast?, ∀ b ∈ r2.head?, b - a > 1)
        runs := by
  cases s with
  | nil =>
    refine ⟨[], rfl, rfl, ?_, ?_⟩
    · intro r hr
      simp at hr
    · simp
  | cons x s' =>
    cases s' with
    | nil => simp at h1
    | cons y t =>
      refine ⟨runsFrom [] x (y :: t), contiguous_cons_cons x y t, ?_, ?_,
        runsFrom_gap [] x (y :: t)⟩
      · rw [runsFrom_flatten]
        rfl
      · intro r hr
        exact ⟨runsFrom_ne_nil [] x (y :: t) r hr,
          runsFrom_step_one [] x (y :: t) (by simp) hinc r hr⟩

theorem contiguous_partitions_into_runs_witness :
    ([1, 2, 3, 5, 10, 11, 12, 17] : List Int).length ≠ 1 ∧
    List.Chain' (· < ·) ([1, 2, 3, 5, 10, 11, 12, 17] : List Int) ∧
    (∃ runs, contiguous [1, 2, 3, 5, 10, 11, 12, 17] = some runs ∧
      runs.flatten = [1, 2, 3, 5, 10, 11, 12, 17] ∧
      (∀ r ∈ runs, r ≠ [] ∧ List.Chain' (fun a b => b = a + 1) r) ∧
      List.Chain' (fun r1 r2 => ∀ a ∈ r1.getLast?, ∀ b ∈ r2.head?, b - a > 1)
        runs) :=
  ⟨by decide, by simp [List.chain'_cons],
    contiguous_partitions_into_runs [1, 2, 3, 5, 10, 11, 12, 17]
      (by decide) (by simp [List.chain'_cons])⟩

/-- C2 counterexample: on the strictly increasing one-element source
`[7]`, `contiguous` fails (no runs are produced at all), so no
concatenation of emitted runs reproduces the source. -/
theorem contiguous_concat_counterexample :
    ¬ ∃ runs, contiguous [(7 : Int)] = some runs ∧
      runs.flatten = [(7 : Int)] := by
  rintro ⟨runs, hc, -⟩
  exact Option.noConfusion hc

/-- C7: on a single-element source, the pair stream of
`pairwise(iterable, 2)` is empty, so the loop variable `y` of
`contiguous` is never bound and the final `yield buffer + [y]` fails
(`UnboundLocalError`) instead of emitting the run `[[x]]`. -/
theorem contiguous_singleton_fails : ∀ x : Int, contiguous [x] = none :=
  fun _ => rfl

/-- C10 counterexample: on the empty source the call does not fail —
`pairwise([], 2)` raises `StopIteration` inside the generator frame,
which Python 2 reads as normal exhaustion. -/
theorem contiguous_empty_counterexample :
    contiguous ([] : List Int) ≠ none := by
  decide

/-- C10 (amended): on the empty source, `pairwise`'s advance loop raises
`StopIteration` inside the `contiguous` generator frame; Python 2 treats
that as normal exhaustion, so the generator returns normally having
emitted zero runs — the final `yield buffer + [y]` line is never reached,
and the spec's open question is resolved as "emit zero runs". -/
theorem contiguous_empty_zero_runs : contiguous ([] : List Int) = some [] :=
  rfl

/-! ### Range formatter: `to_ranges` -/

/-- C6: `to_ranges` maps the spec's `formatRun` over the runs emitted by
`contiguous` — a single-element run becomes its decimal string and a
multi-element run becomes `"<first>-<last>"` — and on the worked example
`[1,2,3,5,10,11,12,17]` it yields `["1-3","5","10-12","17"]`. -/
theorem to_ranges_formats_runs :
    (∀ s : List Int, to_ranges s = (contiguous s).map (List.map formatRun)) ∧
    to_ranges [1, 2, 3, 5, 10, 11, 12, 17] =
      some ["1-3", "5", "10-12", "17"] := by
  constructor
  · intro s
    unfold to_ranges
    cases contiguous s with
    | none => rfl
    | some runs =>
      simp only [Option.map_some']
      congr 1
      refine List.map_congr_left fun run _ => ?_
      match run with
      | [] => rfl
      | [a] => rfl
      | a :: b :: t =>
        have hne : ¬((a :: b :: t).length = 1) := by
          simp only [List.length_cons]
          omega
        rw [if_neg hne]
        rfl
  · rfl

/-! ### Error handling of the window size argument -/

/-- C8 counterexample: the window size 0 is smaller than 1, yet
`pairwise` returns the empty output sequence instead of failing —
`tee(iterable, 0)` makes zero copies and `izip()` of no iterables is
empty. -/
theorem pairwiseInt_zero_counterexample :
    (0 : Int) < 1 ∧ pairwiseInt ([1, 2, 3] : List Int) 0 = some [] :=
  ⟨by decide, rfl⟩

/-- C8 (amended): a negative window size makes `pairwise` fail
(`tee` raises `ValueError` for a negative copy count), while window size
0 succeeds with an empty output sequence. -/
theorem pairwiseInt_negative_fails (s : List α) (n : Int) :
    (n < 0 → pairwiseInt s n = none) ∧ (n = 0 → pairwiseInt s n = some []) := by
  constructor
  · intro h
    rw [pairwiseInt, if_pos h]
  · intro h
    subst h
    rfl

theorem pairwiseInt_negative_fails_witness :
    pairwiseInt ([1, 2] : List Int) (-1) = none ∧
    pairwiseInt ([1, 2] : List Int) 0 = some [] :=
  ⟨(pairwiseInt_negative_fails [1, 2] (-1)).1 (by decide),
   (pairwiseInt_negative_fails [1, 2] 0).2 rfl⟩

/-! ### Combinatorial enumerator: `combinations` and `powerset` -/

theorem combinations_length (l : List α) :
    ∀ r, (combinations l r).length = l.length.choose r := by
  induction l with
  | nil =>
    intro r
    cases r with
    | zero => rfl
    | succ r => rfl
  | cons a t ih =>
    intro r
    cases r with
    | zero => rfl
    | succ r =>
      simp [combinations, ih, Nat.choose_succ_succ]

theorem combinations_mem_iff (l : List α) :
    ∀ (r : Nat) (x : List α),
      x ∈ combinations l r ↔ x.Sublist l ∧ x.length = r := by
  induction l with
  | nil =>
    intro r x
    cases r with
    | zero =>
      simp only [combinations, List.mem_singleton]
      constructor
      · rintro rfl
        exact ⟨List.Sublist.refl [], rfl⟩
      · rintro ⟨hs, hlen⟩
        exact List.eq_nil_of_length_eq_zero hlen
    | succ r =>
      simp only [combinations, List.not_mem_nil, false_iff]
      rintro ⟨hs, hlen⟩
      have h0 := hs.length_le
      simp only [List.length_nil] at h0
      omega
  | cons a t ih =>
    intro r x
    cases r with
    | zero =>
      simp only [combinations, List.mem_singleton]
      constructor
      · rintro rfl
        exact ⟨List.nil_sublist _, rfl⟩
      · rintro ⟨hs, hlen⟩
        exact List.eq_nil_of_length_eq_zero hlen
    | succ r =>
      simp only [combinations, List.mem_append, List.mem_map]
      rw [List.sublist_cons_iff]
      constructor
      · rintro (⟨u, hu, rfl⟩ | hmem)
        · obtain ⟨hsub, hlen⟩ := (ih r u).mp hu
          exact ⟨Or.inr ⟨u, rfl, hsub⟩, by simp [hlen]⟩
        · obtain ⟨hsub, hlen⟩ := (ih (r + 1) x).mp hmem
          exact ⟨Or.inl hsub, hlen⟩
      · rintro ⟨hs | ⟨u, rfl, hsub⟩, hlen⟩
        · exact Or.inr ((ih (r + 1) x).mpr ⟨hs, hlen⟩)
        · refine Or.inl ⟨u, (ih r u).mpr ⟨hsub, ?_⟩, rfl⟩
          simp at hlen
          omega

theorem combinations_head_mem (l : List α) (r : Nat) (b : α) (v : List α)
    (h : (b :: v) ∈ combinations l r) : b ∈ l :=
  ((combinations_mem_iff l r (b :: v)).mp h).1.subset (List.mem_cons_self b v)

theorem combinations_sorted (l : List Nat) (hl : List.Sorted (· < ·) l) :
    ∀ r, List.Sorted (List.Lex (· < ·)) (combinations l r) := by
  induction l with
  | nil =>
    intro r
    cases r with
    | zero => exact List.sorted_singleton []
    | succ r => exact List.sorted_nil
  | cons a t ih =>
    have ha : ∀ b ∈ t, a < b := (List.sorted_cons.mp hl).1
    have ht : List.Sorted (· < ·) t := (List.sorted_cons.mp hl).2
    intro r
    cases r with
    | zero => exact List.sorted_singleton []
    | succ r =>
      rw [combinations]
      unfold List.Sorted at *
      rw [List.pairwise_append]
      refine ⟨?_, ih ht (r + 1), ?_⟩
      · rw [List.pairwise_map]
        exact (ih ht r).imp fun h => List.Lex.cons h
      · intro x hx y hy
        obtain ⟨u, hu, rfl⟩ := List.mem_map.mp hx
        match y, hy with
        | [], hy =>
          have := ((combinations_mem_iff t (r + 1) []).mp hy).2
          simp at this
        | b :: v, hy =>
          exact List.Lex.rel (ha b (combinations_head_mem t (r + 1) b v hy))

theorem combinations_map (f : α → β) (l : List α) :
    ∀ r, combinations (l.map f) r = (combinations l r).map (List.map f) := by
  induction l with
  | nil =>
    intro r
    cases r with
    | zero => rfl
    | succ r => rfl
  | cons a t ih =>
    intro r
    cases r with
    | zero => rfl
    | succ r =>
      simp only [List.map_cons, combinations, ih, List.map_append,
        List.map_map]
      rfl

theorem list_sum_range (f : Nat → Nat) (n : Nat) :
    ((List.range n).map f).sum = ∑ k ∈ Finset.range n, f k := by
  induction n with
  | zero => rfl
  | succ n ih =>
    rw [List.range_succ, List.map_append, List.sum_append,
      Finset.sum_range_succ, ih]
    simp

theorem powerset_length (items : List α) :
    (powerset items).length = 2 ^ items.length - 1 := by
  rw [powerset, List.length_flatMap]
  have h1 : (List.map (List.length ∘ fun k => combinations items (k + 1))
      (List.range items.length)).sum =
      ∑ k ∈ Finset.range items.length, items.length.choose (k + 1) := by
    rw [← list_sum_range (fun k => items.length.choose (k + 1)) items.length]
    congr 1
    refine List.map_congr_left fun k _ => ?_
    simp [combinations_length]
  rw [h1]
  have h2 := Nat.sum_range_choose items.length
  rw [Finset.sum_range_succ' (fun k => items.length.choose k)
    items.length] at h2
  simp only [Nat.choose_zero_right] at h2
  omega

theorem powerset_mem_iff (items : List α) (x : List α) :
    x ∈ powerset items ↔ x.Sublist items ∧ x ≠ [] := by
  rw [powerset, List.mem_flatMap]
  constructor
  · rintro ⟨k, _, hmem⟩
    obtain ⟨hsub, hlen⟩ := (combinations_mem_iff items (k + 1) x).mp hmem
    refine ⟨hsub, ?_⟩
    intro hnil
    rw [hnil] at hlen
    simp at hlen
  · rintro ⟨hsub, hne⟩
    have hpos : 1 ≤ x.length := by
      cases x with
      | nil => exact absurd rfl hne
      | cons b v => simp
    have hle : x.length ≤ items.length := hsub.length_le
    refine ⟨x.length - 1, List.mem_range.mpr (by omega), ?_⟩
    exact (combinations_mem_iff items (x.length - 1 + 1) x).mpr
      ⟨hsub, by omega⟩

/-- C3: `powerset` emits exactly `2^L − 1` subsets, each a non-empty
order-preserving subset of the input; every non-empty order-preserving
subset is emitted; subsets are grouped by size `r` (every member of the
size-`r` group has length `r`, groups in ascending `r`); within a size
the index-combinations are in strictly increasing lexicographic order
(stated on index lists, transported to arbitrary inputs by naturality of
`combinations` under `map`); and `powerset ['a','b','c']` joined as
strings is `["a","b","c","ab","ac","bc","abc"]`. -/
theorem powerset_meets_spec :
    (∀ (γ : Type) (items : List γ),
        (powerset items).length = 2 ^ items.length - 1 ∧
        (∀ x ∈ powerset items, x ≠ [] ∧ x.Sublist items) ∧
        (∀ x : List γ, x.Sublist items → x ≠ [] → x ∈ powerset items) ∧
        (∀ r : Nat, ∀ x ∈ combinations items r, x.length = r)) ∧
    (∀ (l : List Nat) (r : Nat), List.Sorted (· < ·) l →
        List.Sorted (List.Lex (· < ·)) (combinations l r)) ∧
    (∀ (γ δ : Type) (f : γ → δ) (l : List γ) (r : Nat),
        combinations (l.map f) r = (combinations l r).map (List.map f)) ∧
    (powerset ["a", "b", "c"]).map String.join =
      ["a", "b", "c", "ab", "ac", "bc", "abc"] := by
  refine ⟨?_, ?_, ?_, ?_⟩
  · intro γ items
    refine ⟨powerset_length items, ?_, ?_, ?_⟩
    · intro x hx
      obtain ⟨hsub, hne⟩ := (powerset_mem_iff items x).mp hx
      exact ⟨hne, hsub⟩
    · intro x hsub hne
      exact (powerset_mem_iff items x).mpr ⟨hsub, hne⟩
    · intro r x hx
      exact ((combinations_mem_iff items r x).mp hx).2
  · intro l r hl
    exact combinations_sorted l hl r
  · intro γ δ f l r
    exact combinations_map f l r
  · rfl

theorem powerset_meets_spec_witness :
    [0, 2] ∈ powerset [0, 1, 2] ∧
    List.Sorted (List.Lex (· < ·)) (combinations (List.range 3) 2) := by
  constructor
  · exact (powerset_meets_spec.1 Nat [0, 1, 2]).2.2.1 [0, 2]
      (by decide) (by decide)
  · exact powerset_meets_spec.2.1 (List.range 3) 2 (by decide)

/-! ### Combinatorial enumerator: `permsOf` and `all_permutations` -/

theorem pickOne_perm (l : List α) : ∀ p ∈ pickOne l, (p.1 :: p.2).Perm l := by
  induction l with
  | nil =>
    intro p hp
    simp [pickOne] at hp
  | cons a t ih =>
    intro p hp
    rw [pickOne] at hp
    rcases List.mem_cons.mp hp with rfl | hmem
    · exact List.Perm.refl _
    · obtain ⟨q, hq, rfl⟩ := List.mem_map.mp hmem
      have h1 : (q.1 :: a :: q.2).Perm (a :: q.1 :: q.2) :=
        List.Perm.swap a q.1 q.2
      have h2 : (a :: q.1 :: q.2).Perm (a :: t) := (ih q hq).cons a
      exact h1.trans h2

theorem pickOne_mem_of_mem (l : List α) (a : α) (ha : a ∈ l) :
    ∃ rest, (a, rest) ∈ pickOne l := by
  induction l with
  | nil => simp at ha
  | cons b t ih =>
    rcases List.mem_cons.mp ha with rfl | hmem
    · exact ⟨t, List.mem_cons_self _ _⟩
    · obtain ⟨rest, hr⟩ := ih hmem
      exact ⟨b :: rest,
        List.mem_cons_of_mem _ (List.mem_map.mpr ⟨(a, rest), hr, rfl⟩)⟩

theorem pickOne_firsts (l : List α) : (pickOne l).map Prod.fst = l := by
  induction l with
  | nil => rfl
  | cons a t ih =>
    rw [pickOne, List.map_cons, List.map_map]
    exact congrArg (a :: ·) ih

theorem pickOne_length (l : List α) : (pickOne l).length = l.length := by
  conv_rhs => rw [← pickOne_firsts l]
  rw [List.length_map]

theorem pickOne_length_snd (l : List α) :
    ∀ p ∈ pickOne l, p.2.length + 1 = l.length := by
  intro p hp
  have h := (pickOne_perm l p hp).length_eq
  simpa using h

theorem pickOne_sorted (l : List Nat) (hl : List.Sorted (· < ·) l) :
    ∀ p ∈ pickOne l, List.Sorted (· < ·) p.2 := by
  induction l with
  | nil =>
    intro p hp
    simp [pickOne] at hp
  | cons a t ih =>
    have ha := (List.sorted_cons.mp hl).1
    have ht := (List.sorted_cons.mp hl).2
    intro p hp
    rw [pickOne] at hp
    rcases List.mem_cons.mp hp with rfl | hmem
    · exact ht
    · obtain ⟨q, hq, rfl⟩ := List.mem_map.mp hmem
      rw [List.sorted_cons]
      refine ⟨?_, ih ht q hq⟩
      intro b hb
      have hbt : b ∈ t :=
        (pickOne_perm t q hq).mem_iff.mp (List.mem_cons_of_mem q.1 hb)
      exact ha b hbt

theorem sum_map_const_of_mem {f : α → Nat} :
    ∀ (l : List α) (c : Nat), (∀ x ∈ l, f x = c) →
      (l.map f).sum = l.length * c := by
  intro l c
  induction l with
  | nil => intro _; simp
  | cons a t ih =>
    intro h
    rw [List.map_cons, List.sum_cons, ih fun x hx => h x (List.mem_cons_of_mem a hx),
      h a (List.mem_cons_self a t), List.length_cons, Nat.succ_mul]
    omega

theorem permsOf_length : ∀ (r : Nat) (l : List α),
    (permsOf r l).length = l.length.descFactorial r := by
  intro r
  induction r with
  | zero => intro l; rfl
  | succ r ih =>
    intro l
    rw [permsOf, List.length_flatMap]
    rw [sum_map_const_of_mem (pickOne l) ((l.length - 1).descFactorial r) ?hc]
    case hc =>
      intro p hp
      simp only [Function.comp_apply, List.length_map, ih p.2]
      have := pickOne_length_snd l p hp
      congr 1
      omega
    rw [pickOne_length]
    cases l with
    | nil => simp [Nat.zero_descFactorial_succ]
    | cons a t =>
      simp only [List.length_cons, Nat.add_sub_cancel]
      rw [Nat.succ_descFactorial_succ]

theorem permsOf_subperm : ∀ (r : Nat) (l x : List α),
    x ∈ permsOf r l → x.length = r ∧ x.Subperm l := by
  intro r
  induction r with
  | zero =>
    intro l x hx
    simp only [permsOf, List.mem_singleton] at hx
    subst hx
    exact ⟨rfl, List.nil_subperm⟩
  | succ r ih =>
    intro l x hx
    rw [permsOf] at hx
    obtain ⟨p, hp, hx⟩ := List.mem_flatMap.mp hx
    obtain ⟨u, hu, rfl⟩ := List.mem_map.mp hx
    obtain ⟨hlen, hsub⟩ := ih p.2 u hu
    refine ⟨by simp [hlen], ?_⟩
    exact ((List.subperm_cons p.1).mpr hsub).trans (pickOne_perm l p hp).subperm

theorem permsOf_mem_of : ∀ (r : Nat) (x l : List α),
    x.length = r → x.Nodup → (∀ a ∈ x, a ∈ l) → x ∈ permsOf r l := by
  intro r
  induction r with
  | zero =>
    intro x l hlen _ _
    rw [List.eq_nil_of_length_eq_zero hlen]
    simp [permsOf]
  | succ r ih =>
    intro x l hlen hnd hsub
    cases x with
    | nil => simp at hlen
    | cons a u =>
      have ha : a ∈ l := hsub a (List.mem_cons_self a u)
      obtain ⟨rest, hrest⟩ := pickOne_mem_of_mem l a ha
      have hperm : ((a, rest).1 :: (a, rest).2).Perm l := pickOne_perm l (a, rest) hrest
      have hanotu : a ∉ u := (List.nodup_cons.mp hnd).1
      have hund : u.Nodup := (List.nodup_cons.mp hnd).2
      have husub : ∀ b ∈ u, b ∈ rest := by
        intro b hb
        have hbl : b ∈ l := hsub b (List.mem_cons_of_mem a hb)
        rcases List.mem_cons.mp (hperm.mem_iff.mpr hbl) with rfl | h
        · exact absurd hb hanotu
        · exact h
      rw [permsOf]
      refine List.mem_flatMap.mpr ⟨(a, rest), hrest, ?_⟩
      exact List.mem_map.mpr ⟨u, ih u rest (by simpa using hlen) hund husub, rfl⟩

theorem permsOf_sorted : ∀ (r : Nat) (l : List Nat),
    List.Sorted (· < ·) l → List.Sorted (List.Lex (· < ·)) (permsOf r l) := by
  intro r
  induction r with
  | zero =>
    intro l _
    exact List.sorted_singleton []
  | succ r ih =>
    intro l hl
    rw [permsOf, List.flatMap_def]
    unfold List.Sorted
    rw [List.pairwise_flatten]
    constructor
    · intro bl hbl
      obtain ⟨p, hp, rfl⟩ := List.mem_map.mp hbl
      rw [List.pairwise_map]
      exact (ih p.2 (pickOne_sorted l hl p hp)).imp fun h => List.Lex.cons h
    · rw [List.pairwise_map]
      have hfst : List.Pairwise (fun p q : Nat × List Nat => p.1 < q.1)
          (pickOne l) := by
        have h2 : List.Pairwise (· < ·) ((pickOne l).map Prod.fst) := by
          rw [pickOne_firsts]
          exact hl
        exact List.pairwise_map.mp h2
      refine hfst.imp ?_
      intro p q hpq x hx y hy
      obtain ⟨u, hu, rfl⟩ := List.mem_map.mp hx
      obtain ⟨v, hv, rfl⟩ := List.mem_map.mp hy
      exact List.Lex.rel hpq

/-- C4: `all_permutations` emits `Σ_{r=1}^{L} L!/(L−r)!` sequences in
total; every member of the size-`r` group has length `r` (groups in
ascending `r`); for a distinct-element input, a sequence is emitted in
group `r` exactly when it is a length-`r` duplicate-free selection of
input elements (every permutation of every size-`r` subset, each once);
within a size class the index arrangements are in strictly increasing
lexicographic order of index positions (stated on index lists); and
`all_permutations ['a','b','c']` joined as strings is the 15-element
example list. -/
theorem all_permutations_meets_spec :
    (∀ (γ : Type) (items : List γ),
        (all_permutations items).length =
          ∑ r ∈ Finset.Icc 1 items.length,
            items.length.factorial / (items.length - r).factorial ∧
        (∀ r : Nat, ∀ x ∈ permsOf r items, x.length = r) ∧
        (items.Nodup → ∀ (x : List γ) (r : Nat),
            x ∈ permsOf r items ↔
              x.length = r ∧ x.Nodup ∧ ∀ a ∈ x, a ∈ items)) ∧
    (∀ (l : List Nat) (r : Nat), List.Sorted (· < ·) l →
        List.Sorted (List.Lex (· < ·)) (permsOf r l)) ∧
    (all_permutations ["a", "b", "c"]).map String.join =
      ["a", "b", "c", "ab", "ac", "ba", "bc", "ca", "cb",
       "abc", "acb", "bac", "bca", "cab", "cba"] := by
  refine ⟨?_, ?_, ?_⟩
  · intro γ items
    refine ⟨?_, ?_, ?_⟩
    · have hlen : (all_permutations items).length =
          ∑ k ∈ Finset.range items.length,
            items.length.descFactorial (k + 1) := by
        rw [all_permutations, List.length_flatMap,
          ← list_sum_range fun k => items.length.descFactorial (k + 1)]
        congr 1
        refine List.map_congr_left fun k _ => ?_
        simp [permsOf_length]
      rw [hlen, ← Nat.Ico_succ_right, Finset.sum_Ico_eq_sum_range]
      rw [Nat.succ_sub_one]
      refine Finset.sum_congr rfl fun k hk => ?_
      have hk1 : k < items.length := Finset.mem_range.mp hk
      rw [Nat.add_comm 1 k, Nat.descFactorial_eq_div (by omega)]
    · intro r x hx
      exact (permsOf_subperm r items x hx).1
    · intro hnd x r
      constructor
      · intro hx
        obtain ⟨hlen, hsub⟩ := permsOf_subperm r items x hx
        refine ⟨hlen, ?_, fun a ha => hsub.subset ha⟩
        obtain ⟨w, hw, hws⟩ := hsub
        exact hw.nodup_iff.mp (List.Nodup.sublist hws hnd)
      · rintro ⟨hlen, hnd2, hsub⟩
        exact permsOf_mem_of r x items hlen hnd2 hsub
  · intro l r hl
    exact permsOf_sorted r l hl
  · rfl

theorem all_permutations_meets_spec_witness :
    ([2, 0] ∈ permsOf 2 [0, 1, 2] ↔
      [2, 0].length = 2 ∧ [2, 0].Nodup ∧ ∀ a ∈ [2, 0], a ∈ [0, 1, 2]) ∧
    List.Sorted (List.Lex (· < ·)) (permsOf 2 (List.range 3)) := by
  constructor
  · exact (all_permutations_meets_spec.1 Nat [0, 1, 2]).2.2 (by decide) [2, 0] 2
  · exact all_permutations_meets_spec.2.1 (List.range 3) 2 (by decide)

/-! ### Word-finder pipeline -/

/-- C5: `findWords` is a subset of the dictionary; each result word is
the joined form of some non-empty duplicate-respecting selection (a
permutation of a sub-multiset) of the input letters; and the result, a
set, carries no duplicate entries. -/
theorem findWords_meets_spec (letters : List Char) (dictionary : Finset String) :
    findWords letters dictionary ⊆ dictionary ∧
    (∀ w ∈ findWords letters dictionary,
      ∃ x : List Char, x ≠ [] ∧ x.Subperm letters ∧ w = String.mk x) ∧
    (findWords letters dictionary).val.Nodup := by
  refine ⟨Finset.inter_subset_right, ?_, (findWords letters dictionary).nodup⟩
  intro w hw
  have hw1 : w ∈ ((all_permutations letters).map fun x => String.mk x).toFinset :=
    Finset.mem_of_mem_inter_left hw
  rw [List.mem_toFinset] at hw1
  obtain ⟨x, hx, rfl⟩ := List.mem_map.mp hw1
  rw [all_permutations, List.mem_flatMap] at hx
  obtain ⟨k, _, hxk⟩ := hx
  obtain ⟨hlen, hsub⟩ := permsOf_subperm (k + 1) letters x hxk
  refine ⟨x, ?_, hsub, rfl⟩
  intro hnil
  rw [hnil] at hlen
  simp at hlen

theorem findWords_meets_spec_witness :
    ∃ x : List Char, x ≠ [] ∧ x.Subperm ['a', 'b'] ∧ "ab" = String.mk x :=
  (findWords_meets_spec ['a', 'b'] {"ab", "zz"}).2.1 "ab" (by decide)

end Motivation
